import Mathlib

/-!
A verification development for the Dephaze-Topologies repository.

The embedded code is the scan / phase-field / reconstruction pipeline of the
DephazePhaseMap component (src/DephazeAnisotropicMapping.jsx) together with the
stability kernel Xi shared by src/DephazeValidation.jsx and
src/DephazeViewer.jsx.

Modelling conventions:
* JavaScript numbers are modelled as exact real numbers.  Transcendental
  functions (sin, cos, atan2, acos, sqrt, pow, log, exp) are the Mathlib real
  functions; Math.atan2 y x is Complex.arg (x + y*I) (both have range
  (-pi, pi] and send the origin to 0); Math.pow on a nonnegative base is
  Real.rpow.  In exact real arithmetic no NaN / Infinity values arise, so the
  non-finiteness guard of fromLogR is the unreachable branch of a total
  function; the clamp that follows it is modelled exactly.
* The JavaScript remainder operator on reals truncates toward zero, which is
  jsrem below; on integers it is Int.tmod.
* The mutable N x N cell array is modelled as a total function
  Grid = int -> int -> Cell together with pointwise update; the code only ever
  touches indices produced by its own binning, and every theorem below
  constrains directions to the domain on which the model and the array
  behaviour agree (out of range theta indices would be a TypeError in the
  original, and the phi index is explicitly guarded by the code itself).
* forEach loops and for loops accumulating state are List.foldl over the
  iteration order of the original; summation loops are Finset sums.
-/

noncomputable section

namespace Dephaze

/-- PHI3 constant of DephazePhaseMap (line 230). -/
def PHI3 : ℝ := 4.2360679

/-- TAU = 2 pi (line 231). -/
def TAU : ℝ := 2 * Real.pi

/-- EPS constant (line 232). -/
def EPS : ℝ := 1e-9

/-- Math.sign: -1 on negatives, 1 on positives, 0 at 0. -/
def jsSign (x : ℝ) : ℝ := if x < 0 then -1 else if 0 < x then 1 else 0

/-- Truncation toward zero, as used by the JavaScript % operator. -/
def jstrunc (x : ℝ) : ℤ := if 0 ≤ x then ⌊x⌋ else ⌈x⌉

/-- The JavaScript remainder a % b on real operands (sign follows a). -/
def jsrem (a b : ℝ) : ℝ := a - b * (jstrunc (a / b) : ℝ)

/-- wrap2pi (line 234): ((a % TAU) + TAU) % TAU. -/
def wrap2pi (a : ℝ) : ℝ := jsrem (jsrem a TAU + TAU) TAU

/-- Math.atan2 y x, modelled as the complex argument of x + y*I. -/
def atan2 (y x : ℝ) : ℝ := Complex.arg ⟨x, y⟩

/-- The componentwise symmetry-breaking warp sign(c)*|c|^PHI3 of
phi3VortexDirWarp (lines 245-247). -/
def warpW (c : ℝ) : ℝ := jsSign c * |c| ^ PHI3

/-- ux of phi3VortexDirWarp (line 240). -/
def uxOf (theta phi : ℝ) : ℝ := Real.sin phi * Real.cos theta

/-- uy of phi3VortexDirWarp (line 241). -/
def uyOf (theta phi : ℝ) : ℝ := Real.sin phi * Real.sin theta

/-- uz of phi3VortexDirWarp (line 242). -/
def uzOf (phi : ℝ) : ℝ := Real.cos phi

/-- wx of phi3VortexDirWarp (line 245). -/
def wxOf (theta phi : ℝ) : ℝ := warpW (uxOf theta phi)

/-- wy of phi3VortexDirWarp (line 246). -/
def wyOf (theta phi : ℝ) : ℝ := warpW (uyOf theta phi)

/-- wz of phi3VortexDirWarp (line 247). -/
def wzOf (phi : ℝ) : ℝ := warpW (uzOf phi)

/-- The warped-vector norm of phi3VortexDirWarp (line 250, before the
falsy-zero replacement). -/
def n0Of (theta phi : ℝ) : ℝ :=
  Real.sqrt (wxOf theta phi * wxOf theta phi +
    wyOf theta phi * wyOf theta phi + wzOf phi * wzOf phi)

/-- The normalizer of phi3VortexDirWarp (line 250): the JavaScript
`|| 1e-12` replaces a zero norm by 1e-12. -/
def nrmOf (theta phi : ℝ) : ℝ :=
  if n0Of theta phi = 0 then 1e-12 else n0Of theta phi

/-- phi3VortexDirWarp (lines 238-259): map a direction (theta, phi) to the
phi-cubed vortex space direction (thetaP, phiP). -/
def phi3VortexDirWarp (theta phi : ℝ) : ℝ × ℝ :=
  (wrap2pi (atan2 (wyOf theta phi / nrmOf theta phi)
      (wxOf theta phi / nrmOf theta phi)),
    Real.arccos (max (-1)
      (min 1 (wzOf phi / nrmOf theta phi))))

/-- toLogR (line 262): log-domain encoding of a magnitude. -/
def toLogR (R : ℝ) : ℝ := Real.log (max EPS (R + EPS))

/-- fromLogR (lines 263-267): log-domain decoding.  The JavaScript guard
substitutes 2.0 when exp overflows to a non-finite value; in exact real
arithmetic Real.exp is total, so only the clamp to [0.5, 4.0] remains. -/
def fromLogR (logR : ℝ) : ℝ := max 0.5 (min 4.0 (Real.exp logR - EPS))

/-- A phase-map cell (line 316): running weighted mean and accumulated
weight. -/
structure Cell where
  logR : ℝ
  count : ℝ

/-- The N x N mutable array, modelled as a total function on integer pairs. -/
def Grid : Type := ℤ → ℤ → Cell

/-- defaultLogR (line 309): encoding of the fixed default magnitude R = 2. -/
def defaultLogR : ℝ := toLogR 2.0

/-- The freshly allocated map (lines 311-317): every cell holds
(defaultLogR, 0). -/
def initGrid : Grid := fun _ _ => ⟨defaultLogR, 0⟩

/-- Pointwise array update. -/
def update (g : Grid) (i j : ℤ) (c : Cell) : Grid :=
  fun a b => if a = i ∧ b = j then c else g a b

/-- The cell assignment performed by addSample (lines 328-335). -/
def cellAdd (c : Cell) (F w : ℝ) : Cell :=
  if c.count = 0 then ⟨F, w⟩
  else ⟨(c.logR * c.count + F * w) / (c.count + w), c.count + w⟩

/-- The binning of addSample (lines 323-325): ti = floor(thetaP/TAU*N) % N and
tj = floor(phiP/pi*N); the sample is dropped when tj is out of range. -/
def binOf (N : ℤ) (thetaP phiP : ℝ) : Option (ℤ × ℤ) :=
  let ti := (⌊thetaP / TAU * (N : ℝ)⌋).tmod N
  let tj := ⌊phiP / Real.pi * (N : ℝ)⌋
  if tj < 0 ∨ N ≤ tj then none else some (ti, tj)

/-- addSample (lines 322-336). -/
def addSample (N : ℤ) (g : Grid) (thetaP phiP F w : ℝ) : Grid :=
  match binOf N thetaP phiP with
  | none => g
  | some (i, j) => update g i j (cellAdd (g i j) F w)

/-- One addSample invocation, as data. -/
structure Ev where
  thetaP : ℝ
  phiP : ℝ
  F : ℝ
  w : ℝ

/-- A sequence of addSample invocations. -/
def insertEvents (N : ℤ) (g : Grid) (evs : List Ev) : Grid :=
  evs.foldl (fun g e => addSample N g e.thetaP e.phiP e.F e.w) g

/-- A scanned point (line 299); the render-only x, y, z fields are omitted. -/
structure Pt where
  theta : ℝ
  phi : ℝ
  R : ℝ
  logR : ℝ
  thetaP : ℝ
  phiP : ℝ

/-- The two addSample calls issued per scanned point (lines 339-346): the
measured sample at weight 1.0 and the virtual second-warp sample at weight
0.2. -/
def eventsOfPt (p : Pt) : List Ev :=
  let v2 := phi3VortexDirWarp p.thetaP p.phiP
  [⟨p.thetaP, p.phiP, p.logR, 1.0⟩, ⟨v2.1, v2.2, p.logR, 0.2⟩]

/-- The insertion phase of phaseMap (lines 339-346). -/
def insertAll (N : ℤ) (pts : List Pt) : Grid :=
  insertEvents N initGrid (pts.flatMap eventsOfPt)

/-- Row-major iteration order of the hole-filling loops (lines 349-350). -/
def cellsList (N : ℤ) : List (ℤ × ℤ) :=
  (List.range N.toNat).flatMap fun (i : ℕ) =>
    (List.range N.toNat).map fun (j : ℕ) => ((i : ℤ), (j : ℤ))

/-- The replacement cell computed by the hole-filling loop body for an empty
cell (lines 354-371): neighbour indices wrap with % N along theta and clamp
along phi; the sum and count accumulate over the neighbours that have weight;
the filled cell receives their average (or defaultLogR when none has weight)
at the tiny weight 1e-6. -/
def fillValue (N : ℤ) (g : Grid) (i j : ℤ) : Cell :=
  let i1 := (i - 1 + N).tmod N
  let i2 := (i + 1).tmod N
  let j1 := max 0 (j - 1)
  let j2 := min (N - 1) (j + 1)
  let s := (if 0 < (g i1 j).count then (g i1 j).logR else 0) +
           (if 0 < (g i2 j).count then (g i2 j).logR else 0) +
           (if 0 < (g i j1).count then (g i j1).logR else 0) +
           (if 0 < (g i j2).count then (g i j2).logR else 0)
  let c := (if 0 < (g i1 j).count then (1 : ℝ) else 0) +
           (if 0 < (g i2 j).count then 1 else 0) +
           (if 0 < (g i j1).count then 1 else 0) +
           (if 0 < (g i j2).count then 1 else 0)
  if 0 < c then ⟨s / c, 1e-6⟩ else ⟨defaultLogR, 1e-6⟩

/-- The body of the hole-filling loop for one cell (lines 351-372): an empty
cell is overwritten with fillValue, every other cell is left alone. -/
def fillCellIJ (N : ℤ) (g : Grid) (i j : ℤ) : Grid :=
  if (g i j).count = 0 then update g i j (fillValue N g i j) else g

/-- The hole-filling loop body on the row-major iteration pair. -/
def fillCell (N : ℤ) (g : Grid) (p : ℤ × ℤ) : Grid := fillCellIJ N g p.1 p.2

/-- The single hole-filling pass (lines 349-374). -/
def fillPass (N : ℤ) (g : Grid) : Grid := (cellsList N).foldl (fillCell N) g

/-- phaseMap (lines 305-377): insertion followed by the hole-filling pass. -/
def phaseMapOf (N : ℤ) (pts : List Pt) : Grid := fillPass N (insertAll N pts)

/-- A spectral coefficient (lines 433-439). -/
structure Coeff where
  kTheta : ℤ
  kPhi : ℤ
  re : ℝ
  im : ℝ
  amplitude : ℝ

/-- The DC term (lines 387-389): the grid mean. -/
def dcOf (N : ℤ) (g : Grid) : ℝ :=
  (∑ i ∈ Finset.range N.toNat, ∑ j ∈ Finset.range N.toNat, (g i j).logR) /
    ((N : ℝ) * N)

/-- The coefficient computed for one frequency pair (lines 409-430). -/
def coeffAt (N : ℤ) (g : Grid) (dc : ℝ) (kT kP : ℤ) : Coeff :=
  let re0 := ∑ i ∈ Finset.range N.toNat, ∑ j ∈ Finset.range N.toNat,
    ((g i j).logR - dc) * Real.cos (-TAU * ((kT : ℝ) * i / N)) *
      Real.cos (Real.pi * kP * ((j : ℝ) + 0.5) / N)
  let im0 := ∑ i ∈ Finset.range N.toNat, ∑ j ∈ Finset.range N.toNat,
    ((g i j).logR - dc) * Real.sin (-TAU * ((kT : ℝ) * i / N)) *
      Real.cos (Real.pi * kP * ((j : ℝ) + 0.5) / N)
  let r := re0 / ((N : ℝ) * N)
  let im := im0 / ((N : ℝ) * N)
  ⟨kT, kP, r, im, Real.sqrt (r * r + im * im)⟩

/-- The candidate coefficient list (lines 391-442): kTheta runs from
-floor(N/2) to floor(N/2), kPhi from 0 to N-1, the DC pair is skipped, and a
candidate is kept only when its amplitude exceeds 0.00002. -/
def allCoeffs (N : ℤ) (g : Grid) : List Coeff :=
  let dc := dcOf N g
  let maxFT := N.tdiv 2
  (List.range (2 * maxFT + 1).toNat).flatMap fun (a : ℕ) =>
    (List.range N.toNat).filterMap fun (kP : ℕ) =>
      let kT := (a : ℤ) - maxFT
      if kT = 0 ∧ (kP : ℤ) = 0 then none
      else
        let c := coeffAt N g dc kT (kP : ℤ)
        if 0.00002 < c.amplitude then some c else none

/-- The fourierData result record (lines 447-452). -/
structure FData where
  dc : ℝ
  N : ℤ
  coefficients : List Coeff
  totalCoeffs : ℕ

/-- The comparator-induced order of allCoeffs.sort((a, b) => b.amplitude -
a.amplitude): descending amplitude, equal amplitudes kept in computation
order (JavaScript sort is stable). -/
def ampOrd (a b : Coeff) : Bool := b.amplitude ≤ a.amplitude

/-- fourierData (lines 380-453): sort the candidates by descending amplitude
and keep the first min(K, candidate count). -/
def fourierDataOf (N : ℤ) (K : ℕ) (g : Grid) : FData :=
  let all := allCoeffs N g
  let sorted := all.mergeSort ampOrd
  ⟨dcOf N g, N, sorted.take (min K all.length), all.length⟩

/-- The compression mode toggle. -/
inductive CMode
  | spatial
  | fourier

/-- reconstructR (lines 456-490).  The fourier branch runs only when the mode
is fourier and fourierData is present, exactly as the guard on line 462. -/
def reconstructR (N : ℤ) (mode : CMode) (fd : Option FData) (g : Grid)
    (theta phi : ℝ) : ℝ :=
  let wrp := phi3VortexDirWarp theta phi
  let thetaP := wrp.1
  let phiP := wrp.2
  match mode, fd with
  | CMode.fourier, some f =>
      let ti := thetaP / TAU * N
      let tj := phiP / Real.pi * N
      let logR := f.dc + (f.coefficients.map fun c =>
        (c.re * Real.cos (TAU * ((c.kTheta : ℝ) * ti / N)) -
          c.im * Real.sin (TAU * ((c.kTheta : ℝ) * ti / N))) *
          Real.cos (Real.pi * c.kPhi * (tj + 0.5) / N)).sum
      fromLogR logR
  | _, _ =>
      let ti := (⌊thetaP / TAU * (N : ℝ)⌋).tmod N
      let tj := ⌊phiP / Real.pi * (N : ℝ)⌋
      if tj < 0 ∨ N ≤ tj then 2.0
      else fromLogR ((g ti tj).logR)

/-- The mean absolute reconstruction error of metrics (lines 503-509). -/
def avgErrorOf (pts : List Pt) (recon : ℝ → ℝ → ℝ) : ℝ :=
  (pts.map fun p => |recon p.theta p.phi - p.R|).sum / max 1 (pts.length : ℝ)

/-- xiStability of metrics (line 510). -/
def xiStability (pts : List Pt) (recon : ℝ → ℝ → ℝ) : ℝ :=
  max 0 (100 - avgErrorOf pts recon * 50)

/-- The denominator used by the stability kernel Xi
(src/DephazeValidation.jsx lines 17-25 and src/DephazeViewer.jsx lines
13-20): the Chebyshev norm beyond the n > 50 threshold, otherwise the
Minkowski expression.  (The extra n === Infinity test of the first file is
vacuous over the reals.) -/
def xiDenom (x y z n : ℝ) : ℝ :=
  if 50 < n then max |x| (max |y| |z|)
  else (|x| ^ n + |y| ^ n + |z| ^ n) ^ (1 / n)

/-- The stability kernel Xi of both files: R divided by the denominator,
with no epsilon floor and no rejection of any n. -/
def Xi (x y z R n : ℝ) : ℝ := R / xiDenom x y z n

lemma tau_pos : 0 < TAU := by
  unfold TAU
  positivity

lemma fromLogR_bounds (x : ℝ) : 0.5 ≤ fromLogR x ∧ fromLogR x ≤ 4 := by
  unfold fromLogR
  refine ⟨le_max_left _ _, max_le (by norm_num) ?_⟩
  calc min 4.0 (Real.exp x - EPS) ≤ 4.0 := min_le_left _ _
    _ ≤ 4 := by norm_num

/-- Claim C1: for every query direction with theta in [0, 2pi) and phi in
[0, pi], reconstructR (in both spatial and fourier modes, for any phase map
and any coefficient data) returns a value clamped to the physical range
[0.5, 4.0]; in particular it terminates and is finite.  (The non-finite
fallback 2.0 of fromLogR and of the out-of-range spatial lookup also lies in
this range.) -/
theorem reconstructR_always_clamped (N : ℤ) (mode : CMode) (fd : Option FData)
    (g : Grid) (theta phi : ℝ) (h0 : 0 ≤ theta) (h1 : theta < TAU)
    (h2 : 0 ≤ phi) (h3 : phi ≤ Real.pi) :
    0.5 ≤ reconstructR N mode fd g theta phi ∧
      reconstructR N mode fd g theta phi ≤ 4 := by
  cases mode <;> cases fd <;>
    simp only [reconstructR] <;>
    first
      | (split
         · exact ⟨by norm_num, by norm_num⟩
         · exact fromLogR_bounds _)
      | exact fromLogR_bounds _

/-- Witness for claim C1 at the concrete query (0, 0) in spatial mode. -/
theorem reconstructR_always_clamped_witness :
    0.5 ≤ reconstructR 1 CMode.spatial none initGrid 0 0 ∧
      reconstructR 1 CMode.spatial none initGrid 0 0 ≤ 4 :=
  reconstructR_always_clamped 1 CMode.spatial none initGrid 0 0 le_rfl
    tau_pos le_rfl Real.pi_nonneg

/-- Counterexample to claim C4: the kernel does not floor its denominator to
the small epsilon 1e-9 before dividing; at the origin (0, 0, 0) (here with
n = 2) the denominator it divides by is 0, which is below epsilon. -/
theorem xi_denominator_not_floored : ¬ ((1e-9 : ℝ) ≤ xiDenom 0 0 0 2) := by
  have h : xiDenom 0 0 0 2 = 0 := by
    unfold xiDenom
    rw [if_neg (by norm_num)]
    rw [abs_zero, Real.zero_rpow (show (2 : ℝ) ≠ 0 by norm_num)]
    rw [show (0 : ℝ) + 0 + 0 = 0 by norm_num]
    rw [Real.zero_rpow (show (1 : ℝ) / 2 ≠ 0 by norm_num)]
  rw [h]
  norm_num

/-- Claim C4 (amended): the stability kernel performs no epsilon floor on its
denominator — at the origin the denominator is exactly 0 (the division is
carried out on it, yielding Infinity in JavaScript) — and it does not reject
n <= 0 at the boundary: the finite-n Minkowski formula is evaluated as-is for
nonpositive n, e.g. Xi(1, 1, 1, R = 2, n = -1) = 6. -/
theorem xi_no_floor_no_rejection :
    xiDenom 0 0 0 2 = 0 ∧ Xi 1 1 1 2 (-1) = 6 := by
  constructor
  · unfold xiDenom
    rw [if_neg (by norm_num)]
    rw [abs_zero, Real.zero_rpow (show (2 : ℝ) ≠ 0 by norm_num)]
    rw [show (0 : ℝ) + 0 + 0 = 0 by norm_num]
    rw [Real.zero_rpow (show (1 : ℝ) / 2 ≠ 0 by norm_num)]
  · unfold Xi xiDenom
    rw [if_neg (by norm_num)]
    rw [abs_one, Real.one_rpow]
    rw [show (1 : ℝ) + 1 + 1 = 3 by norm_num]
    rw [show (1 : ℝ) / (-1) = -1 by norm_num]
    rw [Real.rpow_neg_one]
    norm_num

/-- Claim C5: for every point, radius and exponent, the kernel returns the
Chebyshev limit R / max(|x|, |y|, |z|) whenever n exceeds the practical
threshold 50, and the finite-n Minkowski formula
R / (|x|^n + |y|^n + |z|^n)^(1/n) whenever n <= 50. -/
theorem xi_threshold_split (x y z R n : ℝ) :
    (50 < n → Xi x y z R n = R / max |x| (max |y| |z|)) ∧
      (n ≤ 50 → Xi x y z R n = R / (|x| ^ n + |y| ^ n + |z| ^ n) ^ (1 / n)) := by
  constructor
  · intro h
    unfold Xi xiDenom
    rw [if_pos h]
  · intro h
    unfold Xi xiDenom
    rw [if_neg (not_lt.mpr h)]

/-- Witness for claim C5 at n = 51 (Chebyshev branch) and n = 2 (Minkowski
branch). -/
theorem xi_threshold_split_witness :
    Xi 1 2 3 5 51 = 5 / max |(1 : ℝ)| (max |(2 : ℝ)| |(3 : ℝ)|) ∧
      Xi 1 2 3 5 2 =
        5 / (|(1 : ℝ)| ^ (2 : ℝ) + |(2 : ℝ)| ^ (2 : ℝ) + |(3 : ℝ)| ^ (2 : ℝ)) ^
          ((1 : ℝ) / 2) :=
  ⟨(xi_threshold_split 1 2 3 5 51).1 (by norm_num),
    (xi_threshold_split 1 2 3 5 2).2 (by norm_num)⟩

lemma avgErrorOf_nonneg (pts : List Pt) (recon : ℝ → ℝ → ℝ) :
    0 ≤ avgErrorOf pts recon := by
  unfold avgErrorOf
  apply div_nonneg
  · apply List.sum_nonneg
    intro x hx
    obtain ⟨p, _, hp⟩ := List.mem_map.mp hx
    rw [← hp]
    exact abs_nonneg _
  · exact le_trans (by norm_num) (le_max_left 1 _)

/-- Claim C9: the metrics engine stability score equals
clamp(100 - meanAbsoluteError * 50, 0, 100) where the mean absolute error is
the average of |reconstruct(direction) - R| over the scan samples; the score
always lies in [0, 100] and is monotone non-increasing in the mean absolute
error. -/
theorem xiStability_clamped_monotone (pts : List Pt) (recon : ℝ → ℝ → ℝ) :
    xiStability pts recon =
        max 0 (min 100 (100 - avgErrorOf pts recon * 50)) ∧
      0 ≤ xiStability pts recon ∧ xiStability pts recon ≤ 100 ∧
      ∀ (pts2 : List Pt) (recon2 : ℝ → ℝ → ℝ),
        avgErrorOf pts recon ≤ avgErrorOf pts2 recon2 →
          xiStability pts2 recon2 ≤ xiStability pts recon := by
  have hnn := avgErrorOf_nonneg pts recon
  refine ⟨?_, ?_, ?_, ?_⟩
  · unfold xiStability
    rw [min_eq_right (by linarith)]
  · exact le_max_left _ _
  · unfold xiStability
    apply max_le (by norm_num)
    linarith
  · intro pts2 recon2 h
    unfold xiStability
    apply max_le_max le_rfl
    linarith

/-- Witness for claim C9 on the empty scan set with the zero reconstructor. -/
theorem xiStability_clamped_monotone_witness :
    xiStability [] (fun _ _ => 0) ≤ xiStability [] (fun _ _ => 0) :=
  (xiStability_clamped_monotone [] (fun _ _ => 0)).2.2.2 [] (fun _ _ => 0)
    le_rfl

lemma jsrem_bounds_nonneg (a : ℝ) (h : 0 ≤ a) :
    0 ≤ jsrem a TAU ∧ jsrem a TAU < TAU := by
  have hx : 0 ≤ a / TAU := div_nonneg h tau_pos.le
  have he : jsrem a TAU = TAU * Int.fract (a / TAU) := by
    unfold jsrem jstrunc
    rw [if_pos hx, Int.fract, mul_sub, mul_comm TAU (a / TAU),
      div_mul_cancel₀ a (ne_of_gt tau_pos)]
  rw [he]
  constructor
  · exact mul_nonneg tau_pos.le (Int.fract_nonneg _)
  · calc TAU * Int.fract (a / TAU) < TAU * 1 :=
        (mul_lt_mul_left tau_pos).mpr (Int.fract_lt_one _)
    _ = TAU := mul_one _

lemma jsrem_bounds_neg (a : ℝ) (h : a < 0) :
    -TAU < jsrem a TAU ∧ jsrem a TAU ≤ 0 := by
  have hx : a / TAU < 0 := div_neg_of_neg_of_pos h tau_pos
  have ha : TAU * (a / TAU) = a := by
    rw [mul_comm, div_mul_cancel₀ a (ne_of_gt tau_pos)]
  unfold jsrem jstrunc
  rw [if_neg (not_le.mpr hx)]
  constructor
  · have h1 : (⌈a / TAU⌉ : ℝ) < a / TAU + 1 := Int.ceil_lt_add_one _
    have h2 : TAU * (⌈a / TAU⌉ : ℝ) < TAU * (a / TAU + 1) :=
      (mul_lt_mul_left tau_pos).mpr h1
    rw [mul_add, ha, mul_one] at h2
    linarith
  · have h1 : a / TAU ≤ (⌈a / TAU⌉ : ℝ) := Int.le_ceil _
    have h2 : TAU * (a / TAU) ≤ TAU * (⌈a / TAU⌉ : ℝ) :=
      (mul_le_mul_left tau_pos).mpr h1
    rw [ha] at h2
    linarith

lemma wrap2pi_mem (a : ℝ) : 0 ≤ wrap2pi a ∧ wrap2pi a < TAU := by
  unfold wrap2pi
  rcases le_or_lt 0 a with h | h
  · have h1 := jsrem_bounds_nonneg a h
    exact jsrem_bounds_nonneg _ (by linarith [tau_pos])
  · have h1 := jsrem_bounds_neg a h
    exact jsrem_bounds_nonneg _ (by linarith [tau_pos])

lemma theta_index_mem (theta : ℝ) (N : ℤ) (h0 : 0 ≤ theta) (h1 : theta < TAU)
    (hN : 0 < N) :
    (⌊theta / TAU * (N : ℝ)⌋).tmod N = ⌊theta / TAU * (N : ℝ)⌋ ∧
      0 ≤ ⌊theta / TAU * (N : ℝ)⌋ ∧ ⌊theta / TAU * (N : ℝ)⌋ < N := by
  have hNR : (0 : ℝ) < (N : ℝ) := by exact_mod_cast hN
  have hf0 : 0 ≤ ⌊theta / TAU * (N : ℝ)⌋ :=
    Int.floor_nonneg.mpr (mul_nonneg (div_nonneg h0 tau_pos.le) hNR.le)
  have hlt : theta / TAU * (N : ℝ) < (N : ℝ) := by
    have hd : theta / TAU < 1 := (div_lt_one tau_pos).mpr h1
    calc theta / TAU * (N : ℝ) < 1 * (N : ℝ) := (mul_lt_mul_right hNR).mpr hd
      _ = (N : ℝ) := one_mul _
  have hfN : ⌊theta / TAU * (N : ℝ)⌋ < N := Int.floor_lt.mpr hlt
  refine ⟨?_, hf0, hfN⟩
  rw [Int.tmod_eq_emod hf0 hN.le]
  exact Int.emod_eq_of_lt hf0 hfN

lemma phi_index_mem (phiP : ℝ) (N : ℤ) (h0 : 0 ≤ phiP) (h1 : phiP ≤ Real.pi)
    (hN : 0 < N) :
    0 ≤ ⌊phiP / Real.pi * (N : ℝ)⌋ ∧ ⌊phiP / Real.pi * (N : ℝ)⌋ ≤ N ∧
      (⌊phiP / Real.pi * (N : ℝ)⌋ < N ↔ phiP < Real.pi) := by
  have hNR : (0 : ℝ) < (N : ℝ) := by exact_mod_cast hN
  refine ⟨?_, ?_, ?_⟩
  · exact Int.floor_nonneg.mpr
      (mul_nonneg (div_nonneg h0 Real.pi_pos.le) hNR.le)
  · have hle : phiP / Real.pi * (N : ℝ) ≤ (N : ℝ) :=
      mul_le_of_le_one_left hNR.le ((div_le_one Real.pi_pos).mpr h1)
    calc ⌊phiP / Real.pi * (N : ℝ)⌋ ≤ ⌊(N : ℝ)⌋ := Int.floor_le_floor hle
      _ = N := Int.floor_intCast N
  · rw [Int.floor_lt]
    constructor
    · intro h
      by_contra hc
      have hpi : phiP = Real.pi := le_antisymm h1 (not_lt.mp hc)
      rw [hpi, div_self (ne_of_gt Real.pi_pos), one_mul] at h
      exact lt_irrefl _ h
    · intro h
      have hd : phiP / Real.pi < 1 := (div_lt_one Real.pi_pos).mpr h
      calc phiP / Real.pi * (N : ℝ) < 1 * (N : ℝ) :=
          (mul_lt_mul_right hNR).mpr hd
        _ = (N : ℝ) := one_mul _

lemma warp_shape (theta phi : ℝ) :
    ∃ t v : ℝ, phi3VortexDirWarp theta phi =
      (wrap2pi t, Real.arccos (max (-1) (min 1 v))) := by
  unfold phi3VortexDirWarp
  exact ⟨_, _, rfl⟩

lemma warp_fst_mem (theta phi : ℝ) :
    0 ≤ (phi3VortexDirWarp theta phi).1 ∧
      (phi3VortexDirWarp theta phi).1 < TAU := by
  obtain ⟨t, v, hw⟩ := warp_shape theta phi
  rw [hw]
  exact wrap2pi_mem t

lemma warp_snd_mem (theta phi : ℝ) :
    0 ≤ (phi3VortexDirWarp theta phi).2 ∧
      (phi3VortexDirWarp theta phi).2 ≤ Real.pi := by
  obtain ⟨t, v, hw⟩ := warp_shape theta phi
  rw [hw]
  exact ⟨Real.arccos_nonneg _, Real.arccos_le_pi _⟩

/-- Claim C10 (amended): the vortex direction warp always returns a direction
in the valid domain — thetaP in [0, 2pi) via wrap2pi and phiP in [0, pi] via
the clamped arccos — hence for every resolution N > 0 the downstream theta
grid index lies in [0, N) (the % N is the identity there), while the phi grid
index lies in [0, N] and is in range exactly when phiP < pi; the single
out-of-range value N arises at phiP = pi and is rejected by the existing
binning guard rather than indexed. -/
theorem warp_into_domain (theta phi : ℝ) :
    (0 ≤ (phi3VortexDirWarp theta phi).1 ∧
      (phi3VortexDirWarp theta phi).1 < TAU) ∧
    (0 ≤ (phi3VortexDirWarp theta phi).2 ∧
      (phi3VortexDirWarp theta phi).2 ≤ Real.pi) ∧
    ∀ N : ℤ, 0 < N →
      ((⌊(phi3VortexDirWarp theta phi).1 / TAU * (N : ℝ)⌋).tmod N =
          ⌊(phi3VortexDirWarp theta phi).1 / TAU * (N : ℝ)⌋ ∧
        0 ≤ ⌊(phi3VortexDirWarp theta phi).1 / TAU * (N : ℝ)⌋ ∧
        ⌊(phi3VortexDirWarp theta phi).1 / TAU * (N : ℝ)⌋ < N) ∧
      (0 ≤ ⌊(phi3VortexDirWarp theta phi).2 / Real.pi * (N : ℝ)⌋ ∧
        ⌊(phi3VortexDirWarp theta phi).2 / Real.pi * (N : ℝ)⌋ ≤ N) ∧
      (⌊(phi3VortexDirWarp theta phi).2 / Real.pi * (N : ℝ)⌋ < N ↔
        (phi3VortexDirWarp theta phi).2 < Real.pi) := by
  obtain ⟨ht0, ht1⟩ := warp_fst_mem theta phi
  obtain ⟨hp0, hp1⟩ := warp_snd_mem theta phi
  refine ⟨⟨ht0, ht1⟩, ⟨hp0, hp1⟩, ?_⟩
  intro N hN
  obtain ⟨hj0, hj1, hj2⟩ := phi_index_mem _ N hp0 hp1 hN
  exact ⟨theta_index_mem _ N ht0 ht1 hN, ⟨hj0, hj1⟩, hj2⟩

/-- Witness for claim C10 at the direction (0, 0) with N = 1. -/
theorem warp_into_domain_witness :
    0 ≤ (phi3VortexDirWarp 0 0).1 ∧
      0 ≤ ⌊(phi3VortexDirWarp 0 0).2 / Real.pi * ((1 : ℤ) : ℝ)⌋ :=
  ⟨(warp_into_domain 0 0).1.1,
    ((warp_into_domain 0 0).2.2 1 one_pos).2.1.1⟩

lemma warpW_zero : warpW 0 = 0 := by
  unfold warpW jsSign
  norm_num

lemma warpW_one : warpW 1 = 1 := by
  unfold warpW jsSign
  norm_num [Real.one_rpow]

lemma warpW_neg_one : warpW (-1) = -1 := by
  unfold warpW jsSign
  norm_num [Real.one_rpow]

lemma warpW_eq_zero_iff (c : ℝ) : warpW c = 0 ↔ c = 0 := by
  constructor
  · intro h
    by_contra hc
    unfold warpW jsSign at h
    rcases lt_trichotomy c 0 with hlt | heq | hgt
    · rw [if_pos hlt] at h
      have hpos : 0 < |c| ^ PHI3 := Real.rpow_pos_of_pos (abs_pos.mpr hc) _
      nlinarith
    · exact hc heq
    · rw [if_neg (not_lt.mpr hgt.le), if_pos hgt] at h
      have hpos : 0 < |c| ^ PHI3 := Real.rpow_pos_of_pos (abs_pos.mpr hc) _
      nlinarith
  · intro h
    rw [h]
    exact warpW_zero

lemma warp_pi_snd (theta : ℝ) : (phi3VortexDirWarp theta Real.pi).2 = Real.pi := by
  have hwx : wxOf theta Real.pi = 0 := by
    unfold wxOf uxOf
    rw [Real.sin_pi, zero_mul, warpW_zero]
  have hwy : wyOf theta Real.pi = 0 := by
    unfold wyOf uyOf
    rw [Real.sin_pi, zero_mul, warpW_zero]
  have hwz : wzOf Real.pi = -1 := by
    unfold wzOf uzOf
    rw [Real.cos_pi, warpW_neg_one]
  have hn0 : n0Of theta Real.pi = 1 := by
    unfold n0Of
    rw [hwx, hwy, hwz]
    norm_num
  have hnrm : nrmOf theta Real.pi = 1 := by
    unfold nrmOf
    rw [hn0]
    norm_num
  show Real.arccos (max (-1) (min 1 (wzOf Real.pi / nrmOf theta Real.pi))) =
    Real.pi
  rw [hwz, hnrm, show (-1 : ℝ) / 1 = -1 by norm_num,
    show min (1 : ℝ) (-1) = -1 by norm_num, max_self, Real.arccos_neg_one]

lemma warp_zero_pi_snd : (phi3VortexDirWarp 0 Real.pi).2 = Real.pi :=
  warp_pi_snd 0

/-- Counterexample to claim C10: the downstream phi grid index computed from
the warped direction of the in-domain query (theta, phi) = (0, pi) is out of
range — with N = 1 the binning of addSample rejects it (binOf returns none)
because the index equals N. -/
theorem warp_pole_index_out_of_range :
    binOf 1 (phi3VortexDirWarp 0 Real.pi).1 (phi3VortexDirWarp 0 Real.pi).2 =
      none := by
  unfold binOf
  rw [warp_zero_pi_snd]
  rw [div_self (ne_of_gt Real.pi_pos)]
  norm_num

/-- Counterexample to claim C3: an in-domain sample at exactly phi = pi is
dropped by the binning (binOf returns none, here with theta = 0 and N = 4);
it does not contribute to any cell, so the phi index is not clamped to
N - 1. -/
theorem sample_at_pi_dropped : binOf 4 0 Real.pi = none := by
  unfold binOf
  rw [div_self (ne_of_gt Real.pi_pos)]
  norm_num

/-- Claim C3 (amended): for a sample with theta in [0, 2pi), phi in [0, pi]
and N > 0, binning assigns cell (i, j) with i = floor(theta/2pi*N) (on which
the % N of the code is the identity, so i = floor(theta/2pi*N) mod N) and
j = floor(phi/pi*N), both in [0, N), whenever phi < pi; a sample at phi = pi
exactly is discarded (binOf = none) rather than clamped to row N - 1; phi
never wraps, so the phi = 0 and phi = pi rows are never adjacent. -/
theorem binOf_spec (N : ℤ) (theta phi : ℝ) (hN : 0 < N) (h0 : 0 ≤ theta)
    (h1 : theta < TAU) (h2 : 0 ≤ phi) (h3 : phi ≤ Real.pi) :
    (phi < Real.pi →
      binOf N theta phi =
          some (⌊theta / TAU * (N : ℝ)⌋, ⌊phi / Real.pi * (N : ℝ)⌋) ∧
        0 ≤ ⌊theta / TAU * (N : ℝ)⌋ ∧ ⌊theta / TAU * (N : ℝ)⌋ < N ∧
        0 ≤ ⌊phi / Real.pi * (N : ℝ)⌋ ∧ ⌊phi / Real.pi * (N : ℝ)⌋ < N) ∧
    (phi = Real.pi → binOf N theta phi = none) := by
  obtain ⟨hti, hti0, hti1⟩ := theta_index_mem theta N h0 h1 hN
  obtain ⟨htj0, htj1, htj2⟩ := phi_index_mem phi N h2 h3 hN
  constructor
  · intro hlt
    have hjlt : ⌊phi / Real.pi * (N : ℝ)⌋ < N := htj2.mpr hlt
    refine ⟨?_, hti0, hti1, htj0, hjlt⟩
    unfold binOf
    rw [if_neg (by push_neg; exact ⟨htj0, hjlt⟩)]
    rw [hti]
  · intro heq
    unfold binOf
    rw [if_pos]
    right
    subst heq
    rw [div_self (ne_of_gt Real.pi_pos), one_mul, Int.floor_intCast]

/-- Witness for claim C3 at the sample (theta, phi) = (0, 0) with N = 4. -/
theorem binOf_spec_witness :
    binOf 4 0 0 = some (⌊(0 : ℝ) / TAU * ((4 : ℤ) : ℝ)⌋,
      ⌊(0 : ℝ) / Real.pi * ((4 : ℤ) : ℝ)⌋) :=
  ((binOf_spec 4 0 0 (by norm_num) le_rfl tau_pos le_rfl Real.pi_nonneg).1
    Real.pi_pos).1

/-- Total encoded-value-times-weight of a list of addSample invocations. -/
def evFW (es : List Ev) : ℝ := (es.map fun e => e.F * e.w).sum

/-- Total weight of a list of addSample invocations. -/
def evW (es : List Ev) : ℝ := (es.map fun e => e.w).sum

lemma evFW_cons (e : Ev) (es : List Ev) : evFW (e :: es) = e.F * e.w + evFW es := by
  unfold evFW
  rw [List.map_cons, List.sum_cons]

lemma evW_cons (e : Ev) (es : List Ev) : evW (e :: es) = e.w + evW es := by
  unfold evW
  rw [List.map_cons, List.sum_cons]

lemma evW_pos (es : List Ev) (h : ∀ e ∈ es, 0 < e.w) (hne : es ≠ []) :
    0 < evW es := by
  cases es with
  | nil => exact absurd rfl hne
  | cons e tl =>
      rw [evW_cons]
      have h1 : 0 < e.w := h e (List.mem_cons_self e tl)
      have h2 : 0 ≤ evW tl := by
        unfold evW
        apply List.sum_nonneg
        intro x hx
        obtain ⟨b, hb, hbe⟩ := List.mem_map.mp hx
        rw [← hbe]
        exact (h b (List.mem_cons_of_mem e hb)).le
      linarith

lemma addSample_cell_other (N : ℤ) (g : Grid) (thetaP phiP F w : ℝ)
    (i j : ℤ) (h : binOf N thetaP phiP ≠ some (i, j)) :
    (addSample N g thetaP phiP F w) i j = g i j := by
  unfold addSample
  cases hb : binOf N thetaP phiP with
  | none => rfl
  | some p =>
      obtain ⟨a, b⟩ := p
      show update g a b _ i j = g i j
      unfold update
      rw [if_neg]
      intro hab
      apply h
      rw [hb, hab.1, hab.2]

lemma addSample_cell_self (N : ℤ) (g : Grid) (thetaP phiP F w : ℝ)
    (i j : ℤ) (h : binOf N thetaP phiP = some (i, j)) :
    (addSample N g thetaP phiP F w) i j = cellAdd (g i j) F w := by
  unfold addSample
  rw [h]
  show update g i j _ i j = _
  unfold update
  rw [if_pos ⟨rfl, rfl⟩]

lemma insertEvents_cell (N : ℤ) (i j : ℤ) (evs : List Ev) :
    ∀ g : Grid,
      (insertEvents N g evs) i j =
        (evs.filter fun e =>
            decide (binOf N e.thetaP e.phiP = some (i, j))).foldl
          (fun c e => cellAdd c e.F e.w) (g i j) := by
  induction evs with
  | nil => intro g; rfl
  | cons e tl ih =>
      intro g
      show (insertEvents N (addSample N g e.thetaP e.phiP e.F e.w) tl) i j = _
      rw [ih]
      by_cases hb : binOf N e.thetaP e.phiP = some (i, j)
      · rw [List.filter_cons_of_pos (by simpa using hb), List.foldl_cons,
          addSample_cell_self N g _ _ _ _ i j hb]
      · rw [List.filter_cons_of_neg (by simpa using hb),
          addSample_cell_other N g _ _ _ _ i j hb]

lemma foldl_cellAdd_pos (es : List Ev) (h : ∀ e ∈ es, 0 < e.w) :
    ∀ c : Cell, 0 < c.count →
      es.foldl (fun c e => cellAdd c e.F e.w) c =
        ⟨(c.logR * c.count + evFW es) / (c.count + evW es),
          c.count + evW es⟩ := by
  induction es with
  | nil =>
      intro c hc
      obtain ⟨l, w⟩ := c
      simp only [List.foldl_nil, evFW, evW, List.map_nil, List.sum_nil,
        add_zero]
      have hw : w ≠ 0 := by
        simpa using (ne_of_gt hc)
      rw [mul_div_assoc, div_self hw, mul_one]
  | cons e tl ih =>
      intro c hc
      have hew : 0 < e.w := h e (List.mem_cons_self e tl)
      rw [List.foldl_cons]
      have hstep : cellAdd c e.F e.w =
          ⟨(c.logR * c.count + e.F * e.w) / (c.count + e.w), c.count + e.w⟩ := by
        unfold cellAdd
        rw [if_neg (ne_of_gt hc)]
      rw [hstep]
      rw [ih (fun b hb => h b (List.mem_cons_of_mem e hb)) _
        (by simp only []; linarith)]
      have hcw : c.count + e.w ≠ 0 := by positivity
      rw [evFW_cons, evW_cons]
      congr 1
      · rw [div_mul_cancel₀ _ hcw]
        ring_nf
      · ring

/-- Claim C6: cell aggregation is an online weighted running mean — a first
sample sets the cell to (F, w), a later sample with the cell at mean m and
weight wc yields ((m*wc + F*w)/(wc + w), wc + w) — and consequently, after a
sequence of addSample invocations with positive weights and in-domain
directions, every cell that received at least one sample holds exactly the
weighted mean of the encoded values binned into it, with the accumulated
weight. -/
theorem cell_holds_weighted_mean (N : ℤ) (evs : List Ev)
    (hw : ∀ e ∈ evs, 0 < e.w)
    (hdom : ∀ e ∈ evs, 0 ≤ e.thetaP ∧ e.thetaP < TAU ∧
      0 ≤ e.phiP ∧ e.phiP ≤ Real.pi) :
    (∀ (c : Cell) (F w : ℝ), c.count = 0 → cellAdd c F w = ⟨F, w⟩) ∧
    (∀ (c : Cell) (F w : ℝ), c.count ≠ 0 →
      cellAdd c F w =
        ⟨(c.logR * c.count + F * w) / (c.count + w), c.count + w⟩) ∧
    ∀ i j : ℤ,
      (evs.filter fun e =>
          decide (binOf N e.thetaP e.phiP = some (i, j))) ≠ [] →
        (insertEvents N initGrid evs) i j =
          ⟨evFW (evs.filter fun e =>
              decide (binOf N e.thetaP e.phiP = some (i, j))) /
            evW (evs.filter fun e =>
              decide (binOf N e.thetaP e.phiP = some (i, j))),
            evW (evs.filter fun e =>
              decide (binOf N e.thetaP e.phiP = some (i, j)))⟩ := by
  refine ⟨?_, ?_, ?_⟩
  · intro c F w hc
    unfold cellAdd
    rw [if_pos hc]
  · intro c F w hc
    unfold cellAdd
    rw [if_neg hc]
  · intro i j hne
    have hfsub : ∀ e, e ∈ (evs.filter fun e =>
        decide (binOf N e.thetaP e.phiP = some (i, j))) → e ∈ evs := by
      intro e he
      exact (List.mem_filter.mp he).1
    rw [insertEvents_cell]
    cases hf : evs.filter fun e =>
        decide (binOf N e.thetaP e.phiP = some (i, j)) with
    | nil => exact absurd hf hne
    | cons b rest =>
        rw [hf] at hfsub
        have hbw : 0 < b.w := hw b (hfsub b (List.mem_cons_self b rest))
        rw [List.foldl_cons]
        have hfirst : cellAdd (initGrid i j) b.F b.w = ⟨b.F, b.w⟩ := by
          unfold cellAdd initGrid
          rw [if_pos rfl]
        rw [hfirst]
        rw [foldl_cellAdd_pos rest
          (fun e he => hw e (hfsub e (List.mem_cons_of_mem b he))) _ hbw]
        rw [evFW_cons, evW_cons]

/-- Witness for claim C6: a single sample of encoded value 5 and weight 1 at
the warped direction (0, 0) with N = 1 makes cell (0, 0) hold exactly
(5 * 1 / 1, 1). -/
theorem cell_holds_weighted_mean_witness :
    (insertEvents 1 initGrid [⟨0, 0, 5, 1⟩]) 0 0 =
      ⟨evFW ([⟨0, 0, 5, 1⟩].filter fun e =>
          decide (binOf 1 e.thetaP e.phiP = some (0, 0))) /
        evW ([⟨0, 0, 5, 1⟩].filter fun e =>
          decide (binOf 1 e.thetaP e.phiP = some (0, 0))),
        evW ([⟨0, 0, 5, 1⟩].filter fun e =>
          decide (binOf 1 e.thetaP e.phiP = some (0, 0)))⟩ := by
  have hbin : binOf 1 (0 : ℝ) (0 : ℝ) = some (0, 0) := by
    unfold binOf
    norm_num
  apply (cell_holds_weighted_mean 1 [⟨0, 0, 5, 1⟩]
    (by intro e he; simp at he; rw [he]; norm_num)
    (by
      intro e he
      simp at he
      rw [he]
      refine ⟨le_rfl, tau_pos, le_rfl, Real.pi_nonneg⟩)).2.2 0 0
  rw [List.filter_cons, List.filter_nil]
  simp only [hbin]
  simp

lemma cellAdd_count_pos (c : Cell) (F w : ℝ) (hc : 0 ≤ c.count) (hw : 0 < w) :
    0 < (cellAdd c F w).count := by
  unfold cellAdd
  split
  · exact hw
  · show 0 < c.count + w
    linarith

lemma addSample_counts_nonneg (N : ℤ) (g : Grid) (tP pP F w : ℝ)
    (hg : ∀ i j, 0 ≤ (g i j).count) (hw : 0 < w) :
    ∀ i j, 0 ≤ ((addSample N g tP pP F w) i j).count := by
  intro i j
  by_cases hb : binOf N tP pP = some (i, j)
  · rw [addSample_cell_self N g tP pP F w i j hb]
    exact (cellAdd_count_pos _ _ _ (hg i j) hw).le
  · rw [addSample_cell_other N g tP pP F w i j hb]
    exact hg i j

lemma insertEvents_counts_nonneg (N : ℤ) (evs : List Ev) :
    ∀ g : Grid, (∀ e ∈ evs, 0 < e.w) → (∀ i j, 0 ≤ (g i j).count) →
      ∀ i j, 0 ≤ ((insertEvents N g evs) i j).count := by
  induction evs with
  | nil => intro g _ hg; exact hg
  | cons e tl ih =>
      intro g hw hg
      simp only [insertEvents, List.foldl_cons]
      exact ih _ (fun b hb => hw b (List.mem_cons_of_mem e hb))
        (addSample_counts_nonneg N g _ _ _ _ hg (hw e (List.mem_cons_self e tl)))

lemma eventsOfPt_w_pos (p : Pt) : ∀ e ∈ eventsOfPt p, 0 < e.w := by
  intro e he
  unfold eventsOfPt at he
  simp only [List.mem_cons, List.mem_singleton] at he
  rcases he with h | h | h
  · rw [h]; norm_num
  · rw [h]; norm_num
  · exact absurd h (List.not_mem_nil e)

lemma insertAll_counts_nonneg (N : ℤ) (pts : List Pt) :
    ∀ i j, 0 ≤ ((insertAll N pts) i j).count := by
  apply insertEvents_counts_nonneg
  · intro e he
    obtain ⟨p, _, hep⟩ := List.mem_flatMap.mp he
    exact eventsOfPt_w_pos p e hep
  · intro i j
    exact le_rfl

lemma update_self (g : Grid) (i j : ℤ) (c : Cell) : (update g i j c) i j = c := by
  unfold update
  rw [if_pos ⟨rfl, rfl⟩]

lemma fillValue_count (N : ℤ) (g : Grid) (i j : ℤ) :
    (fillValue N g i j).count = 1e-6 := by
  simp only [fillValue]
  split_ifs <;> rfl

lemma fillCellIJ_cell_other (N : ℤ) (g : Grid) (a b i j : ℤ)
    (h : ¬(i = a ∧ j = b)) : (fillCellIJ N g a b) i j = g i j := by
  unfold fillCellIJ
  split_ifs with hc
  · unfold update
    rw [if_neg h]
  · rfl

lemma fillCellIJ_cell_keeps_pos (N : ℤ) (g : Grid) (a b i j : ℤ)
    (h : 0 < (g i j).count) : (fillCellIJ N g a b) i j = g i j := by
  by_cases hab : i = a ∧ j = b
  · obtain ⟨ha, hb⟩ := hab
    subst ha
    subst hb
    unfold fillCellIJ
    rw [if_neg (ne_of_gt h)]
  · exact fillCellIJ_cell_other N g a b i j hab

lemma fillCellIJ_self_pos (N : ℤ) (g : Grid) (a b : ℤ)
    (hg : 0 ≤ (g a b).count) : 0 < ((fillCellIJ N g a b) a b).count := by
  rcases eq_or_lt_of_le hg with h0 | hpos
  · unfold fillCellIJ
    rw [if_pos h0.symm, update_self, fillValue_count]
    norm_num
  · rw [fillCellIJ_cell_keeps_pos N g a b a b hpos]
    exact hpos

lemma fillCellIJ_counts_nonneg (N : ℤ) (g : Grid) (a b : ℤ)
    (hg : ∀ i j, 0 ≤ (g i j).count) :
    ∀ i j, 0 ≤ ((fillCellIJ N g a b) i j).count := by
  intro i j
  by_cases hab : i = a ∧ j = b
  · obtain ⟨ha, hb⟩ := hab
    subst ha
    subst hb
    exact (fillCellIJ_self_pos N g i j (hg i j)).le
  · rw [fillCellIJ_cell_other N g a b i j hab]
    exact hg i j

lemma foldl_fill_keeps_pos (N : ℤ) (L : List (ℤ × ℤ)) :
    ∀ g : Grid, ∀ i j, 0 < (g i j).count →
      0 < ((L.foldl (fillCell N) g) i j).count := by
  induction L with
  | nil => intro g i j h; exact h
  | cons q tl ih =>
      intro g i j h
      rw [List.foldl_cons]
      apply ih
      show 0 < ((fillCellIJ N g q.1 q.2) i j).count
      rw [fillCellIJ_cell_keeps_pos N g q.1 q.2 i j h]
      exact h

lemma foldl_fill_mem_pos (N : ℤ) (L : List (ℤ × ℤ)) :
    ∀ g : Grid, (∀ i j, 0 ≤ (g i j).count) →
      ∀ p ∈ L, 0 < ((L.foldl (fillCell N) g) p.1 p.2).count := by
  induction L with
  | nil =>
      intro g _ p hp
      exact absurd hp (List.not_mem_nil p)
  | cons q tl ih =>
      intro g hg p hp
      rw [List.foldl_cons]
      rcases List.mem_cons.mp hp with h | h
      · subst h
        apply foldl_fill_keeps_pos
        show 0 < ((fillCellIJ N g p.1 p.2) p.1 p.2).count
        exact fillCellIJ_self_pos N g p.1 p.2 (hg p.1 p.2)
      · exact ih (fillCell N g q)
          (fillCellIJ_counts_nonneg N g q.1 q.2 hg) p h

lemma mem_cellsList (N i j : ℤ) (h0 : 0 ≤ i) (h1 : i < N) (h2 : 0 ≤ j)
    (h3 : j < N) : (i, j) ∈ cellsList N := by
  unfold cellsList
  apply List.mem_flatMap.mpr
  refine ⟨i.toNat, by rw [List.mem_range]; omega, ?_⟩
  apply List.mem_map.mpr
  refine ⟨j.toNat, by rw [List.mem_range]; omega, ?_⟩
  rw [Int.toNat_of_nonneg h0, Int.toNat_of_nonneg h2]

/-- The four hole-filling neighbour cells of (i, j): theta wraps with % N, phi
clamps. -/
def nbList (N : ℤ) (g : Grid) (i j : ℤ) : List Cell :=
  [g ((i - 1 + N).tmod N) j, g ((i + 1).tmod N) j,
    g i (max 0 (j - 1)), g i (min (N - 1) (j + 1))]

/-- Of the four neighbour cells, those that have weight. -/
def weightedNb (N : ℤ) (g : Grid) (i j : ℤ) : List Cell :=
  (nbList N g i j).filter fun c => decide (0 < c.count)

lemma filter_map_logR_sum (L : List Cell) :
    (((L.filter fun c => decide (0 < c.count)).map Cell.logR).sum) =
      (L.map fun c => if 0 < c.count then c.logR else 0).sum := by
  induction L with
  | nil => rfl
  | cons x l ih =>
      by_cases hx : 0 < x.count
      · rw [List.filter_cons_of_pos (by simpa using hx), List.map_cons,
          List.sum_cons, ih, List.map_cons, List.sum_cons, if_pos hx]
      · rw [List.filter_cons_of_neg (by simpa using hx), ih, List.map_cons,
          List.sum_cons, if_neg hx, zero_add]

lemma filter_length_sum (L : List Cell) :
    (((L.filter fun c => decide (0 < c.count)).length : ℕ) : ℝ) =
      (L.map fun c => if 0 < c.count then (1 : ℝ) else 0).sum := by
  induction L with
  | nil => norm_num
  | cons x l ih =>
      by_cases hx : 0 < x.count
      · rw [List.filter_cons_of_pos (by simpa using hx), List.length_cons,
          List.map_cons, List.sum_cons, if_pos hx]
        push_cast
        rw [ih]
        ring
      · rw [List.filter_cons_of_neg (by simpa using hx), ih, List.map_cons,
          List.sum_cons, if_neg hx, zero_add]

lemma filter_ne_nil_iff_sum_pos (L : List Cell) :
    (L.filter fun c => decide (0 < c.count)) ≠ [] ↔
      0 < (L.map fun c => if 0 < c.count then (1 : ℝ) else 0).sum := by
  induction L with
  | nil => simp
  | cons x l ih =>
      have hnn : 0 ≤ (l.map fun c => if 0 < c.count then (1 : ℝ) else 0).sum := by
        apply List.sum_nonneg
        intro a ha
        obtain ⟨b, _, hb⟩ := List.mem_map.mp ha
        rw [← hb]
        split_ifs <;> norm_num
      by_cases hx : 0 < x.count
      · rw [List.filter_cons_of_pos (by simpa using hx), List.map_cons,
          List.sum_cons, if_pos hx]
        constructor
        · intro _
          linarith
        · intro _
          exact List.cons_ne_nil _ _
      · rw [List.filter_cons_of_neg (by simpa using hx), List.map_cons,
          List.sum_cons, if_neg hx, zero_add]
        exact ih

lemma fillValue_eval (N : ℤ) (g : Grid) (i j : ℤ) :
    (weightedNb N g i j = [] → fillValue N g i j = ⟨defaultLogR, 1e-6⟩) ∧
    (weightedNb N g i j ≠ [] →
      fillValue N g i j =
        ⟨((weightedNb N g i j).map Cell.logR).sum /
          ((weightedNb N g i j).length : ℝ), 1e-6⟩) := by
  have hs := filter_map_logR_sum (nbList N g i j)
  have hl := filter_length_sum (nbList N g i j)
  have hne := filter_ne_nil_iff_sum_pos (nbList N g i j)
  have hcl : ((nbList N g i j).map fun c =>
      if 0 < c.count then (1 : ℝ) else 0).sum =
      (if 0 < (g ((i - 1 + N).tmod N) j).count then (1 : ℝ) else 0) +
      (if 0 < (g ((i + 1).tmod N) j).count then (1 : ℝ) else 0) +
      (if 0 < (g i (max 0 (j - 1))).count then (1 : ℝ) else 0) +
      (if 0 < (g i (min (N - 1) (j + 1))).count then (1 : ℝ) else 0) := by
    simp only [nbList, List.map_cons, List.map_nil, List.sum_cons,
      List.sum_nil, add_zero]
    ring
  have hsl : ((nbList N g i j).map fun c =>
      if 0 < c.count then c.logR else 0).sum =
      (if 0 < (g ((i - 1 + N).tmod N) j).count
        then (g ((i - 1 + N).tmod N) j).logR else 0) +
      (if 0 < (g ((i + 1).tmod N) j).count
        then (g ((i + 1).tmod N) j).logR else 0) +
      (if 0 < (g i (max 0 (j - 1))).count
        then (g i (max 0 (j - 1))).logR else 0) +
      (if 0 < (g i (min (N - 1) (j + 1))).count
        then (g i (min (N - 1) (j + 1))).logR else 0) := by
    simp only [nbList, List.map_cons, List.map_nil, List.sum_cons,
      List.sum_nil, add_zero]
    ring
  constructor
  · intro hW
    have hc : ¬ 0 < ((nbList N g i j).map fun c =>
        if 0 < c.count then (1 : ℝ) else 0).sum :=
      fun hpos => (hne.mpr hpos) hW
    rw [hcl] at hc
    simp only [fillValue]
    rw [if_neg hc]
  · intro hW
    have hc : 0 < ((nbList N g i j).map fun c =>
        if 0 < c.count then (1 : ℝ) else 0).sum := hne.mp hW
    rw [hcl] at hc
    simp only [fillValue]
    rw [if_pos hc]
    unfold weightedNb
    rw [hs, hl, hsl, hcl]

/-- Claim C2: after phase-field construction from in-domain points (binning
plus the single in-place hole-filling pass), every one of the N x N cells has
strictly positive weight (and hence holds a real, finite value), including on
an empty scan set; and the hole-filling step gives an empty cell the plain
average of those of its 4 grid neighbours (i +- 1 mod N, j +- 1 clamped) that
have weight, falling back to the encoding of the default magnitude R = 2 when
all four are empty. -/
theorem phaseMap_all_cells_weighted (N : ℤ) (pts : List Pt)
    (hdom : ∀ p ∈ pts, 0 ≤ p.thetaP ∧ p.thetaP < TAU ∧
      0 ≤ p.phiP ∧ p.phiP ≤ Real.pi) :
    (∀ i j : ℤ, 0 ≤ i → i < N → 0 ≤ j → j < N →
      0 < ((phaseMapOf N pts) i j).count) ∧
    (∀ (g : Grid) (i j : ℤ), (g i j).count = 0 →
      (weightedNb N g i j = [] →
        fillCell N g (i, j) i j = ⟨defaultLogR, 1e-6⟩) ∧
      (weightedNb N g i j ≠ [] →
        fillCell N g (i, j) i j =
          ⟨((weightedNb N g i j).map Cell.logR).sum /
            ((weightedNb N g i j).length : ℝ), 1e-6⟩)) := by
  constructor
  · intro i j h0 h1 h2 h3
    unfold phaseMapOf fillPass
    exact foldl_fill_mem_pos N (cellsList N) _ (insertAll_counts_nonneg N pts)
      (i, j) (mem_cellsList N i j h0 h1 h2 h3)
  · intro g i j h0
    have hset : fillCell N g (i, j) i j = fillValue N g i j := by
      show fillCellIJ N g i j i j = _
      unfold fillCellIJ
      rw [if_pos h0, update_self]
    rw [hset]
    exact fillValue_eval N g i j

/-- Witness for claim C2 on the empty scan set with N = 1: the single cell
still ends with positive weight. -/
theorem phaseMap_all_cells_weighted_witness :
    0 < ((phaseMapOf 1 []) 0 0).count :=
  (phaseMap_all_cells_weighted 1 []
    (fun p hp => absurd hp (List.not_mem_nil p))).1 0 0 le_rfl one_pos
    le_rfl one_pos

lemma ampOrd_trans : ∀ a b c : Coeff,
    ampOrd a b = true → ampOrd b c = true → ampOrd a c = true := by
  intro a b c h1 h2
  simp only [ampOrd, decide_eq_true_eq] at h1 h2 ⊢
  exact le_trans h2 h1

lemma ampOrd_total : ∀ a b : Coeff, (ampOrd a b || ampOrd b a) = true := by
  intro a b
  simp only [ampOrd, Bool.or_eq_true, decide_eq_true_eq]
  exact le_total _ _

lemma mem_allCoeffs_iff (N : ℤ) (g : Grid) (c : Coeff) :
    c ∈ allCoeffs N g ↔
      ∃ kT kP : ℤ, -(N.tdiv 2) ≤ kT ∧ kT ≤ N.tdiv 2 ∧ 0 ≤ kP ∧ kP < N ∧
        ¬(kT = 0 ∧ kP = 0) ∧
        0.00002 < (coeffAt N g (dcOf N g) kT kP).amplitude ∧
        c = coeffAt N g (dcOf N g) kT kP := by
  simp only [allCoeffs]
  constructor
  · intro hc
    obtain ⟨a, ha, hmem⟩ := List.mem_flatMap.mp hc
    obtain ⟨kP, hkP, hf⟩ := List.mem_filterMap.mp hmem
    rw [List.mem_range] at ha hkP
    by_cases h0 : ((a : ℤ) - N.tdiv 2 = 0 ∧ (kP : ℤ) = 0)
    · rw [if_pos h0] at hf
      exact absurd hf (by simp)
    · rw [if_neg h0] at hf
      by_cases hamp : 0.00002 <
          (coeffAt N g (dcOf N g) ((a : ℤ) - N.tdiv 2) (kP : ℤ)).amplitude
      · rw [if_pos hamp] at hf
        have hce : coeffAt N g (dcOf N g) ((a : ℤ) - N.tdiv 2) (kP : ℤ) = c :=
          Option.some.inj hf
        refine ⟨(a : ℤ) - N.tdiv 2, (kP : ℤ), by omega, by omega, by omega,
          by omega, h0, hamp, hce.symm⟩
      · rw [if_neg hamp] at hf
        exact absurd hf (by simp)
  · rintro ⟨kT, kP, h1, h2, h3, h4, h5, h6, rfl⟩
    have hm : 0 ≤ N.tdiv 2 := Int.tdiv_nonneg (by omega) (by omega)
    apply List.mem_flatMap.mpr
    refine ⟨(kT + N.tdiv 2).toNat, by rw [List.mem_range]; omega, ?_⟩
    apply List.mem_filterMap.mpr
    refine ⟨kP.toNat, by rw [List.mem_range]; omega, ?_⟩
    have hcast1 : (((kT + N.tdiv 2).toNat : ℤ)) - N.tdiv 2 = kT := by omega
    have hcast2 : ((kP.toNat : ℤ)) = kP := by omega
    rw [hcast1, hcast2, if_neg h5, if_pos h6]

/-- Claim C7: the spectral compressor output is sorted in descending
amplitude order; it has exactly min(K, totalCandidateCount) coefficients;
totalCandidateCount counts the candidate list, whose members are exactly the
representable frequency pairs (kTheta in [-floor(N/2), floor(N/2)], kPhi in
[0, N-1]) excluding the DC pair, whose amplitude exceeds the negligible
threshold 0.00002; every kept coefficient is such a candidate; and the DC
term (the subtracted grid mean) is returned separately.  Determinism of the
tie-break is inherent: the output is a function of the input, produced by a
stable sort in computation order. -/
theorem fourier_coefficients_sorted_topK (N : ℤ) (K : ℕ) (g : Grid) :
    List.Pairwise (fun a b => b.amplitude ≤ a.amplitude)
        (fourierDataOf N K g).coefficients ∧
    (fourierDataOf N K g).coefficients.length =
      min K (fourierDataOf N K g).totalCoeffs ∧
    (fourierDataOf N K g).totalCoeffs = (allCoeffs N g).length ∧
    (fourierDataOf N K g).dc = dcOf N g ∧
    (∀ c ∈ (fourierDataOf N K g).coefficients,
      c ∈ allCoeffs N g ∧ 0.00002 < c.amplitude) ∧
    (∀ c : Coeff, c ∈ allCoeffs N g ↔
      ∃ kT kP : ℤ, -(N.tdiv 2) ≤ kT ∧ kT ≤ N.tdiv 2 ∧ 0 ≤ kP ∧ kP < N ∧
        ¬(kT = 0 ∧ kP = 0) ∧
        0.00002 < (coeffAt N g (dcOf N g) kT kP).amplitude ∧
        c = coeffAt N g (dcOf N g) kT kP) := by
  have hperm := List.mergeSort_perm (allCoeffs N g) ampOrd
  have hsorted := List.sorted_mergeSort ampOrd_trans ampOrd_total (allCoeffs N g)
  have hcoe : (fourierDataOf N K g).coefficients =
      ((allCoeffs N g).mergeSort ampOrd).take (min K (allCoeffs N g).length) :=
    rfl
  have hamp : ∀ c ∈ allCoeffs N g, 0.00002 < c.amplitude := by
    intro c hc
    obtain ⟨kT, kP, _, _, _, _, _, h6, hce⟩ := (mem_allCoeffs_iff N g c).mp hc
    rw [hce]
    exact h6
  refine ⟨?_, ?_, rfl, rfl, ?_, mem_allCoeffs_iff N g⟩
  · rw [hcoe]
    refine List.Pairwise.sublist (List.take_sublist _ _) ?_
    refine hsorted.imp ?_
    intro a b h
    simpa [ampOrd, decide_eq_true_eq] using h
  · rw [hcoe, List.length_take, hperm.length_eq]
    show min (min K (allCoeffs N g).length) (allCoeffs N g).length =
      min K (allCoeffs N g).length
    omega
  · intro c hc
    rw [hcoe] at hc
    have hmem : c ∈ (allCoeffs N g).mergeSort ampOrd :=
      List.Sublist.mem hc (List.take_sublist _ _)
    have hall : c ∈ allCoeffs N g := hperm.mem_iff.mp hmem
    exact ⟨hall, hamp c hall⟩

/-- Witness for claim C7 at N = 1, K = 0 on the fresh grid. -/
theorem fourier_coefficients_sorted_topK_witness :
    (fourierDataOf 1 0 initGrid).coefficients.length =
      min 0 (fourierDataOf 1 0 initGrid).totalCoeffs :=
  (fourier_coefficients_sorted_topK 1 0 initGrid).2.1

lemma warp_snd_lt_pi (theta phi : ℝ) (h2 : 0 ≤ phi) (h3 : phi < Real.pi) :
    (phi3VortexDirWarp theta phi).2 < Real.pi := by
  show Real.arccos (max (-1) (min 1 (wzOf phi / nrmOf theta phi))) < Real.pi
  have key : -1 < wzOf phi / nrmOf theta phi := by
    by_cases hs : Real.sin phi = 0
    · have hphi0 : phi = 0 :=
        (Real.sin_eq_zero_iff_of_lt_of_lt (by linarith [Real.pi_pos]) h3).mp hs
      subst hphi0
      have hwx : wxOf theta 0 = 0 := by
        unfold wxOf uxOf
        rw [Real.sin_zero, zero_mul, warpW_zero]
      have hwy : wyOf theta 0 = 0 := by
        unfold wyOf uyOf
        rw [Real.sin_zero, zero_mul, warpW_zero]
      have hwz : wzOf 0 = 1 := by
        unfold wzOf uzOf
        rw [Real.cos_zero, warpW_one]
      have hn0 : n0Of theta 0 = 1 := by
        unfold n0Of
        rw [hwx, hwy, hwz]
        norm_num
      have hnrm : nrmOf theta 0 = 1 := by
        unfold nrmOf
        rw [hn0]
        norm_num
      rw [hwz, hnrm]
      norm_num
    · have huv : uxOf theta phi ≠ 0 ∨ uyOf theta phi ≠ 0 := by
        by_contra hcon
        push_neg at hcon
        obtain ⟨hux, huy⟩ := hcon
        unfold uxOf at hux
        unfold uyOf at huy
        have hct : Real.cos theta = 0 := by
          rcases mul_eq_zero.mp hux with h | h
          · exact absurd h hs
          · exact h
        have hst : Real.sin theta = 0 := by
          rcases mul_eq_zero.mp huy with h | h
          · exact absurd h hs
          · exact h
        have := Real.sin_sq_add_cos_sq theta
        rw [hct, hst] at this
        norm_num at this
      have hw : wxOf theta phi ≠ 0 ∨ wyOf theta phi ≠ 0 := by
        rcases huv with h | h
        · exact Or.inl fun hc => h ((warpW_eq_zero_iff _).mp hc)
        · exact Or.inr fun hc => h ((warpW_eq_zero_iff _).mp hc)
      have hq : 0 < wxOf theta phi * wxOf theta phi +
          wyOf theta phi * wyOf theta phi := by
        rcases hw with h | h
        · exact add_pos_of_pos_of_nonneg (mul_self_pos.mpr h)
            (mul_self_nonneg _)
        · exact add_pos_of_nonneg_of_pos (mul_self_nonneg _)
            (mul_self_pos.mpr h)
      have hSpos : 0 < wxOf theta phi * wxOf theta phi +
          wyOf theta phi * wyOf theta phi + wzOf phi * wzOf phi := by
        have := mul_self_nonneg (wzOf phi)
        linarith
      have hn0pos : 0 < n0Of theta phi := by
        unfold n0Of
        exact Real.sqrt_pos.mpr hSpos
      have hn0sq : n0Of theta phi * n0Of theta phi =
          wxOf theta phi * wxOf theta phi +
            wyOf theta phi * wyOf theta phi + wzOf phi * wzOf phi := by
        unfold n0Of
        exact Real.mul_self_sqrt hSpos.le
      have hnrm : nrmOf theta phi = n0Of theta phi := by
        unfold nrmOf
        rw [if_neg (ne_of_gt hn0pos)]
      have hwzlt : wzOf phi * wzOf phi <
          n0Of theta phi * n0Of theta phi := by
        rw [hn0sq]
        linarith
      rw [hnrm]
      rw [lt_div_iff hn0pos]
      nlinarith [sq_nonneg (wzOf phi + n0Of theta phi)]
  have hmax : -1 < max (-1) (min 1 (wzOf phi / nrmOf theta phi)) := by
    apply lt_max_of_lt_right
    exact lt_min (by norm_num) key
  exact lt_of_le_of_ne (Real.arccos_le_pi _)
    fun heq => absurd (Real.arccos_eq_pi.mp heq) (not_le.mpr hmax)

lemma cellAdd_const (c : Cell) (F w : ℝ) (hcnn : 0 ≤ c.count) (hw : 0 < w)
    (hc : c.count ≠ 0 → c.logR = F) : (cellAdd c F w).logR = F := by
  unfold cellAdd
  split_ifs with h
  · rfl
  · show (c.logR * c.count + F * w) / (c.count + w) = F
    rw [hc h]
    have hpos : 0 < c.count + w := by
      have := lt_of_le_of_ne hcnn (Ne.symm h)
      linarith
    rw [div_eq_iff (ne_of_gt hpos)]
    ring

lemma insertEvents_const (N : ℤ) (F : ℝ) (evs : List Ev) :
    (∀ e ∈ evs, e.F = F) → (∀ e ∈ evs, 0 < e.w) →
    ∀ g : Grid, (∀ i j, 0 ≤ (g i j).count) →
      (∀ i j, (g i j).count ≠ 0 → (g i j).logR = F) →
      ∀ i j, ((insertEvents N g evs) i j).count ≠ 0 →
        ((insertEvents N g evs) i j).logR = F := by
  induction evs with
  | nil =>
      intro _ _ g _ hinv i j hc
      exact hinv i j hc
  | cons e tl ih =>
      intro hF hw g hnn hinv i j hc
      have hew : 0 < e.w := hw e (List.mem_cons_self e tl)
      have hFe : e.F = F := hF e (List.mem_cons_self e tl)
      simp only [insertEvents, List.foldl_cons] at hc ⊢
      refine ih (fun b hb => hF b (List.mem_cons_of_mem e hb))
        (fun b hb => hw b (List.mem_cons_of_mem e hb)) _
        (addSample_counts_nonneg N g _ _ _ _ hnn hew) ?_ i j hc
      intro a b hcab
      by_cases hb : binOf N e.thetaP e.phiP = some (a, b)
      · rw [addSample_cell_self N g _ _ _ _ a b hb]
        exact (cellAdd_const (g a b) e.F e.w (hnn a b) hew
          (fun h => (hinv a b h).trans hFe.symm)).trans hFe
      · rw [addSample_cell_other N g _ _ _ _ a b hb]
        rw [addSample_cell_other N g _ _ _ _ a b hb] at hcab
        exact hinv a b hcab

lemma insertAll_const (N : ℤ) (pts : List Pt) (R : ℝ)
    (hpts : ∀ p ∈ pts, p.logR = toLogR R) :
    ∀ i j, ((insertAll N pts) i j).count ≠ 0 →
      ((insertAll N pts) i j).logR = toLogR R := by
  apply insertEvents_const
  · intro e he
    obtain ⟨p, hp, hep⟩ := List.mem_flatMap.mp he
    unfold eventsOfPt at hep
    simp only [List.mem_cons, List.mem_singleton] at hep
    rcases hep with h | h | h
    · rw [h]
      exact hpts p hp
    · rw [h]
      exact hpts p hp
    · exact absurd h (List.not_mem_nil e)
  · intro e he
    obtain ⟨p, _, hep⟩ := List.mem_flatMap.mp he
    exact eventsOfPt_w_pos p e hep
  · exact fun i j => le_rfl
  · intro i j hc
    exact absurd rfl hc

lemma foldl_fill_keeps_cell (N : ℤ) (L : List (ℤ × ℤ)) :
    ∀ g : Grid, ∀ i j : ℤ, 0 < (g i j).count →
      (L.foldl (fillCell N) g) i j = g i j := by
  induction L with
  | nil => intro g i j _; rfl
  | cons q tl ih =>
      intro g i j h
      rw [List.foldl_cons]
      have heq : (fillCell N g q) i j = g i j :=
        fillCellIJ_cell_keeps_pos N g q.1 q.2 i j h
      have h2 : 0 < ((fillCell N g q) i j).count := by
        rw [heq]
        exact h
      rw [ih (fillCell N g q) i j h2, heq]

lemma phaseMap_const (N : ℤ) (pts : List Pt) (R : ℝ)
    (hpts : ∀ p ∈ pts, p.logR = toLogR R)
    (hcov : ∀ i j : ℤ, 0 ≤ i → i < N → 0 ≤ j → j < N →
      ((insertAll N pts) i j).count ≠ 0) :
    ∀ i j : ℤ, 0 ≤ i → i < N → 0 ≤ j → j < N →
      ((phaseMapOf N pts) i j).logR = toLogR R := by
  intro i j h0 h1 h2 h3
  have hnn := insertAll_counts_nonneg N pts i j
  have hpos : 0 < ((insertAll N pts) i j).count :=
    lt_of_le_of_ne hnn (Ne.symm (hcov i j h0 h1 h2 h3))
  unfold phaseMapOf fillPass
  rw [foldl_fill_keeps_cell N (cellsList N) _ i j hpos]
  exact insertAll_const N pts R hpts i j (ne_of_gt hpos)

lemma dcOf_const (N : ℤ) (g : Grid) (c : ℝ) (hN : 0 < N)
    (hg : ∀ i j : ℤ, 0 ≤ i → i < N → 0 ≤ j → j < N → (g i j).logR = c) :
    dcOf N g = c := by
  unfold dcOf
  have hNR : (0 : ℝ) < (N : ℝ) := by exact_mod_cast hN
  have hNN : ((N.toNat : ℕ) : ℝ) = (N : ℝ) := by
    have := Int.toNat_of_nonneg hN.le
    exact_mod_cast this
  have hinner : ∀ i ∈ Finset.range N.toNat,
      (∑ j ∈ Finset.range N.toNat, ((g i j).logR)) = (N : ℝ) * c := by
    intro i hi
    rw [Finset.mem_range] at hi
    have hval : ∀ j ∈ Finset.range N.toNat, ((g i j).logR) = c := by
      intro j hj
      rw [Finset.mem_range] at hj
      exact hg i j (by omega) (by omega) (by omega) (by omega)
    rw [Finset.sum_congr rfl hval, Finset.sum_const, Finset.card_range,
      nsmul_eq_mul, hNN]
  rw [Finset.sum_congr rfl hinner, Finset.sum_const, Finset.card_range,
    nsmul_eq_mul, hNN]
  field_simp
  ring

lemma coeffAt_const_zero (N : ℤ) (g : Grid) (kT kP : ℤ) (hN : 0 < N)
    (hg : ∀ i j : ℤ, 0 ≤ i → i < N → 0 ≤ j → j < N →
      (g i j).logR = dcOf N g) :
    (coeffAt N g (dcOf N g) kT kP).amplitude = 0 := by
  have hre : (∑ i ∈ Finset.range N.toNat, ∑ j ∈ Finset.range N.toNat,
      ((g i j).logR - dcOf N g) * Real.cos (-TAU * ((kT : ℝ) * i / N)) *
        Real.cos (Real.pi * kP * ((j : ℝ) + 0.5) / N)) = 0 := by
    apply Finset.sum_eq_zero
    intro i hi
    apply Finset.sum_eq_zero
    intro j hj
    rw [Finset.mem_range] at hi hj
    rw [hg i j (by omega) (by omega) (by omega) (by omega), sub_self,
      zero_mul, zero_mul]
  have him : (∑ i ∈ Finset.range N.toNat, ∑ j ∈ Finset.range N.toNat,
      ((g i j).logR - dcOf N g) * Real.sin (-TAU * ((kT : ℝ) * i / N)) *
        Real.cos (Real.pi * kP * ((j : ℝ) + 0.5) / N)) = 0 := by
    apply Finset.sum_eq_zero
    intro i hi
    apply Finset.sum_eq_zero
    intro j hj
    rw [Finset.mem_range] at hi hj
    rw [hg i j (by omega) (by omega) (by omega) (by omega), sub_self,
      zero_mul, zero_mul]
  simp only [coeffAt]
  rw [hre, him]
  norm_num

lemma allCoeffs_const_nil (N : ℤ) (g : Grid) (hN : 0 < N)
    (hg : ∀ i j : ℤ, 0 ≤ i → i < N → 0 ≤ j → j < N →
      (g i j).logR = dcOf N g) :
    allCoeffs N g = [] := by
  rw [List.eq_nil_iff_forall_not_mem]
  intro c hc
  obtain ⟨kT, kP, _, _, _, _, _, h6, hce⟩ := (mem_allCoeffs_iff N g c).mp hc
  rw [coeffAt_const_zero N g kT kP hN hg] at h6
  norm_num at h6

lemma fromLogR_toLogR (R : ℝ) (h1 : 0.5 ≤ R) (h2 : R ≤ 4) :
    fromLogR (toLogR R) = R := by
  unfold fromLogR toLogR EPS
  have hmax1 : max (1e-9 : ℝ) (R + 1e-9) = R + 1e-9 := max_eq_right (by linarith)
  rw [hmax1, Real.exp_log (by linarith)]
  have hsub : R + 1e-9 - 1e-9 = R := by ring
  rw [hsub]
  have hmin : min (4.0 : ℝ) R = R := min_eq_right (by linarith)
  rw [hmin]
  exact max_eq_right (by linarith)

/-- Claim C8 (amended): on a constant scan field (every inserted sample
carries the encoded value of the same magnitude R, in [0.5, 4], and every
grid cell receives at least one sample), spatial-mode reconstruction returns
R exactly at every query direction with phi < pi, while a query at exactly
phi = pi returns the out-of-range fallback 2.0; in spectral mode the
candidate coefficient list is empty (every non-DC coefficient has amplitude
exactly 0, below the keep threshold), the DC term equals the encoding of R,
and reconstruction returns R at every query direction, recovered from the DC
term alone. -/
theorem const_field_roundtrip (N : ℤ) (K : ℕ) (pts : List Pt) (R : ℝ)
    (hN : 0 < N) (hR1 : 0.5 ≤ R) (hR2 : R ≤ 4)
    (hpts : ∀ p ∈ pts, p.logR = toLogR R)
    (hcov : ∀ i j : ℤ, 0 ≤ i → i < N → 0 ≤ j → j < N →
      ((insertAll N pts) i j).count ≠ 0) :
    (∀ theta phi : ℝ, 0 ≤ theta → theta < TAU → 0 ≤ phi → phi < Real.pi →
      reconstructR N CMode.spatial none (phaseMapOf N pts) theta phi = R) ∧
    (∀ theta : ℝ,
      reconstructR N CMode.spatial none (phaseMapOf N pts) theta Real.pi =
        2.0) ∧
    allCoeffs N (phaseMapOf N pts) = [] ∧
    dcOf N (phaseMapOf N pts) = toLogR R ∧
    (∀ theta phi : ℝ,
      reconstructR N CMode.fourier
        (some (fourierDataOf N K (phaseMapOf N pts)))
        (phaseMapOf N pts) theta phi = R) := by
  have hgrid := phaseMap_const N pts R hpts hcov
  have hdc : dcOf N (phaseMapOf N pts) = toLogR R :=
    dcOf_const N _ (toLogR R) hN hgrid
  have hgrid2 : ∀ i j : ℤ, 0 ≤ i → i < N → 0 ≤ j → j < N →
      ((phaseMapOf N pts) i j).logR = dcOf N (phaseMapOf N pts) := by
    intro i j h0 h1 h2 h3
    rw [hgrid i j h0 h1 h2 h3, hdc]
  have hnil : allCoeffs N (phaseMapOf N pts) = [] :=
    allCoeffs_const_nil N _ hN hgrid2
  refine ⟨?_, ?_, hnil, hdc, ?_⟩
  · intro theta phi h0 h1 h2 h3
    simp only [reconstructR]
    obtain ⟨ht0, ht1⟩ := warp_fst_mem theta phi
    obtain ⟨hp0, hp1⟩ := warp_snd_mem theta phi
    have hplt := warp_snd_lt_pi theta phi h2 h3
    obtain ⟨hti, hti0, hti1⟩ := theta_index_mem _ N ht0 ht1 hN
    obtain ⟨htj0, _, htj2⟩ := phi_index_mem _ N hp0 hp1 hN
    have hjlt := htj2.mpr hplt
    rw [if_neg (by push_neg; exact ⟨htj0, hjlt⟩)]
    rw [hti]
    rw [hgrid _ _ hti0 hti1 htj0 hjlt]
    exact fromLogR_toLogR R hR1 hR2
  · intro theta
    simp only [reconstructR]
    rw [warp_pi_snd theta, div_self (ne_of_gt Real.pi_pos), one_mul,
      Int.floor_intCast]
    rw [if_pos (Or.inr le_rfl)]
  · intro theta phi
    simp only [reconstructR]
    have hcoeffs : (fourierDataOf N K (phaseMapOf N pts)).coefficients = [] := by
      show (((allCoeffs N (phaseMapOf N pts)).mergeSort ampOrd).take
        (min K (allCoeffs N (phaseMapOf N pts)).length)) = []
      rw [hnil, List.mergeSort_nil, List.take_nil]
    rw [hcoeffs]
    simp only [List.map_nil, List.sum_nil, add_zero]
    have hfdc : (fourierDataOf N K (phaseMapOf N pts)).dc =
        dcOf N (phaseMapOf N pts) := rfl
    rw [hfdc, hdc]
    exact fromLogR_toLogR R hR1 hR2

/-- Counterexample to claim C8: with the constant magnitude R = 3 scanned at
direction (0, 0) on a 1 x 1 grid, spatial-mode reconstruction at the query
direction (0, pi) returns the out-of-range fallback 2.0, not the constant 3:
the pole query is not recovered within any tolerance. -/
theorem const_field_pole_counterexample :
    reconstructR 1 CMode.spatial none
        (phaseMapOf 1 [⟨0, 0, 3, toLogR 3, 0, 0⟩]) 0 Real.pi = 2.0 ∧
      (2.0 : ℝ) ≠ 3 := by
  constructor
  · simp only [reconstructR]
    rw [warp_pi_snd 0, div_self (ne_of_gt Real.pi_pos), one_mul,
      Int.floor_intCast]
    rw [if_pos (Or.inr le_rfl)]
  · norm_num

lemma wrap2pi_zero : wrap2pi 0 = 0 := by
  have htau : TAU / TAU = 1 := div_self (ne_of_gt tau_pos)
  unfold wrap2pi jsrem jstrunc
  rw [zero_div]
  norm_num
  rw [htau]
  norm_num

lemma atan2_zero_zero : atan2 0 0 = 0 := by
  unfold atan2
  have h : (⟨0, 0⟩ : ℂ) = 0 := rfl
  rw [h, Complex.arg_zero]

lemma warp_zero_zero : phi3VortexDirWarp 0 0 = (0, 0) := by
  have hwx : wxOf 0 0 = 0 := by
    unfold wxOf uxOf
    rw [Real.sin_zero, zero_mul, warpW_zero]
  have hwy : wyOf 0 0 = 0 := by
    unfold wyOf uyOf
    rw [Real.sin_zero, zero_mul, warpW_zero]
  have hwz : wzOf 0 = 1 := by
    unfold wzOf uzOf
    rw [Real.cos_zero, warpW_one]
  have hn0 : n0Of 0 0 = 1 := by
    unfold n0Of
    rw [hwx, hwy, hwz]
    norm_num
  have hnrm : nrmOf 0 0 = 1 := by
    unfold nrmOf
    rw [hn0]
    norm_num
  unfold phi3VortexDirWarp
  rw [hwx, hwy, hwz, hnrm]
  rw [zero_div, one_div_one, atan2_zero_zero, wrap2pi_zero]
  rw [min_self, max_eq_right (by norm_num : (-1 : ℝ) ≤ 1), Real.arccos_one]

lemma insertAll_one_const_cov :
    ((insertAll 1 [(⟨0, 0, 3, toLogR 3, 0, 0⟩ : Pt)]) 0 0).count ≠ 0 := by
  have hbin : binOf 1 (0 : ℝ) (0 : ℝ) = some (0, 0) := by
    unfold binOf
    norm_num
  show ((insertEvents 1 initGrid
    ([(⟨0, 0, 3, toLogR 3, 0, 0⟩ : Pt)].flatMap eventsOfPt)) 0 0).count ≠ 0
  rw [show ([(⟨0, 0, 3, toLogR 3, 0, 0⟩ : Pt)].flatMap eventsOfPt) =
      eventsOfPt ⟨0, 0, 3, toLogR 3, 0, 0⟩ by
    simp [List.flatMap_cons, List.flatMap_nil]]
  show ((insertEvents 1 initGrid [⟨0, 0, toLogR 3, 1.0⟩,
    ⟨(phi3VortexDirWarp 0 0).1, (phi3VortexDirWarp 0 0).2,
      toLogR 3, 0.2⟩]) 0 0).count ≠ 0
  rw [warp_zero_zero]
  show ((addSample 1 (addSample 1 initGrid 0 0 (toLogR 3) 1.0) 0 0
    (toLogR 3) 0.2) 0 0).count ≠ 0
  rw [addSample_cell_self 1 _ 0 0 (toLogR 3) 0.2 0 0 hbin]
  rw [addSample_cell_self 1 initGrid 0 0 (toLogR 3) 1.0 0 0 hbin]
  have h1 : cellAdd (initGrid 0 0) (toLogR 3) 1.0 = ⟨toLogR 3, 1.0⟩ := by
    unfold cellAdd initGrid
    rw [if_pos rfl]
  rw [h1]
  unfold cellAdd
  rw [if_neg (by show (1.0 : ℝ) ≠ 0; norm_num)]
  show (1.0 + 0.2 : ℝ) ≠ 0
  norm_num

/-- Witness for claim C8: the constant field R = 3 scanned at (0, 0) on a
1 x 1 grid is reconstructed exactly at the query (0, 0) in spatial mode. -/
theorem const_field_roundtrip_witness :
    reconstructR 1 CMode.spatial none
      (phaseMapOf 1 [⟨0, 0, 3, toLogR 3, 0, 0⟩]) 0 0 = 3 := by
  refine (const_field_roundtrip 1 0 [⟨0, 0, 3, toLogR 3, 0, 0⟩] 3
    one_pos (by norm_num) (by norm_num) ?_ ?_).1 0 0 le_rfl tau_pos le_rfl
    Real.pi_pos
  · intro p hp
    simp only [List.mem_singleton] at hp
    rw [hp]
  · intro i j h0 h1 h2 h3
    have hi : i = 0 := by omega
    have hj : j = 0 := by omega
    subst hi
    subst hj
    exact insertAll_one_const_cov

end Dephaze

end
